import Mathlib

/-!
Shallow embedding of the graph-layout engine of gitopo
(`src/src/renderer/main.js`) and proofs about it.

Modelling conventions, used throughout:

* JS `Map` objects built by successive `set` calls are modelled by
  association lists in write order; a lookup takes the last write
  (`reverse.find?`).
* JS `Set` objects are modelled by lists in insertion order; membership is
  list membership, and `add` appends the element when it is not present yet.
* JS `while` loops that have no syntactic bound are modelled with an explicit
  fuel parameter, large enough for every run the source terminates on; the
  fuel is part of the embedding, not of the source.
* Commit timestamps are modelled as `Int` (the git `%ct` field is an integer
  number of seconds, and only the relative order of timestamps is ever used).
* String splitting and trimming are re-implemented on `List Char` because the
  source uses the JS `split` / `trim` primitives on single-character
  separators; the embedding keeps JS semantics (`"" .split` gives `[""]`,
  trailing separators give trailing empty fields).
-/

namespace Gitopo

/-- Commit record as produced by one feed line in `fetchCommits`
(main.js 86-97): hash, ordered parent hashes, integer timestamp, message. -/
structure Commit where
  hash : String
  parents : List String
  timestamp : Int
  message : String
deriving DecidableEq

/-- Branch record as produced by `fetchBranches` (main.js 114-126). -/
structure Branch where
  name : String
  hash : String
deriving DecidableEq

/-- Sub-branch record pushed by `findSubBranches` (main.js 316-320); the
member set keeps JS `Set` insertion order. -/
structure SubBranch where
  mergeCommit : Option String
  branchPoint : Option String
  commits : List String
deriving DecidableEq

/-- The `hashToCommit` map rebuilt on every reload (main.js 1014-1015,
1044-1045): successive `Map.set` over `allCommits`, last write wins. -/
def hashToCommit (allCommits : List Commit) (h : String) : Option Commit :=
  allCommits.reverse.find? (fun c => c.hash == h)

/-- The `hashToChildren` reverse index built at the top of `findSubBranches`
(main.js 201-209): the children of `h` are the hashes of the commits that
list `h` among their parents, one entry per occurrence, in `allCommits`
order. -/
def hashToChildren (allCommits : List Commit) (h : String) : List String :=
  allCommits.flatMap (fun c => (c.parents.filter (fun p => p == h)).map (fun _ => c.hash))

/-! ### Lineage tracer (main.js 170-188) -/

/-- One step per iteration of the `while (currentHash)` loop of
`getFirstParentLineage`.  The accumulator is the `lineage` set in insertion
order.  The JS loop has no iteration bound of its own, so the embedding adds
fuel; the Boolean is `true` when the source loop exited by itself and `false`
when the fuel ran out while the source loop was still running. -/
def lineageAux (idx : String → Option Commit) : Nat → String → List String → List String × Bool
  | 0, _, acc => (acc, false)
  | fuel+1, currentHash, acc =>
    if currentHash = "" then (acc, true)
    else
      let acc' := if currentHash ∈ acc then acc else acc ++ [currentHash]
      match idx currentHash with
      | some c =>
        match c.parents with
        | [] => (acc', true)
        | p :: _ => lineageAux idx fuel p acc'
      | none => (acc', true)

/-- Fuel that suffices for every terminating run of the lineage walk: the
walk visits pairwise distinct hashes, at most all loaded ones plus one
missing parent. -/
def lineageFuel (allCommits : List Commit) : Nat :=
  allCommits.length + 1

/-- `getFirstParentLineage` (main.js 170-188): look the branch up by name,
then follow `parents[0]` from its tip, adding every visited hash to the
lineage set, until the current hash has no loaded commit or the commit has no
parents. -/
def getFirstParentLineage (allCommits : List Commit) (allBranches : List Branch)
    (branchName : String) : List String :=
  match allBranches.find? (fun b => b.name == branchName) with
  | none => []
  | some b => (lineageAux (hashToCommit allCommits) (lineageFuel allCommits) b.hash []).1

/-! ### Commit feed parsing (main.js 75-102) -/

/-- JS `String.prototype.split` with a single-character separator:
`"a|b|" .split('|') = ["a","b",""]` and `"" .split('|') = [""]`. -/
def jsSplitAux (sep : Char) : List Char → List Char → List String
  | [], cur => [String.mk cur.reverse]
  | c :: rest, cur =>
    if c = sep then String.mk cur.reverse :: jsSplitAux sep rest []
    else jsSplitAux sep rest (c :: cur)

def jsSplit (sep : Char) (s : String) : List String :=
  jsSplitAux sep s.toList []

/-- JS `String.prototype.trim`: drop whitespace from both ends. -/
def jsTrim (s : String) : String :=
  String.mk (((s.toList.dropWhile Char.isWhitespace).reverse.dropWhile Char.isWhitespace).reverse)

/-- JS `parseInt(s, 10)` as used on the timestamp field: skip leading
whitespace, an optional sign, then the longest digit prefix; `none` plays the
role of `NaN`. -/
def parseIntJS (s : String) : Option Int :=
  let t := (jsTrim s).toList
  let signDigits : Bool × List Char :=
    match t with
    | '-' :: rest => (true, rest)
    | '+' :: rest => (false, rest)
    | _ => (false, t)
  let ds := signDigits.2.takeWhile Char.isDigit
  if ds.isEmpty then none
  else
    let n : Nat := ds.foldl (fun acc ch => acc * 10 + (ch.toNat - 48)) 0
    some (if signDigits.1 then -(n : Int) else (n : Int))

/-- JS `parts.slice(3).join('|')`. -/
def joinPipe : List String → String
  | [] => ""
  | [s] => s
  | s :: rest => s ++ "|" ++ joinPipe rest

/-- Parsing of one line of the commit feed, main.js 88-98: split on `|`,
require at least 4 fields (otherwise the line is skipped), split the trimmed
parent field on single spaces, and rejoin the tail as the message.  The JS
code stores `parseInt` of the timestamp field; a field with no digit prefix
(`NaN` in JS) is modelled as the integer 0, which no claim depends on. -/
def parseCommitLine (line : String) : Option Commit :=
  let parts := jsSplit '|' line
  if 4 ≤ parts.length then
    let hash := parts.headD ""
    let parentsStr := (parts.drop 1).headD ""
    let tsStr := (parts.drop 2).headD ""
    let message := joinPipe (parts.drop 3)
    let pTrim := jsTrim parentsStr
    let parents := if pTrim = "" then [] else jsSplit ' ' pTrim
    some ⟨hash, parents, (parseIntJS tsStr).getD 0, message⟩
  else none

/-- Sort order applied at main.js 100: `(a, b) => b.timestamp - a.timestamp`,
descending timestamps, ties kept in input order by the stable JS sort. -/
def commitOrder (a b : Commit) : Prop := b.timestamp ≤ a.timestamp

instance : DecidableRel commitOrder := fun a b => inferInstanceAs (Decidable (_ ≤ _))

instance : IsTotal Commit commitOrder := ⟨fun a b => le_total b.timestamp a.timestamp⟩

instance : IsTrans Commit commitOrder := ⟨fun _ _ _ h1 h2 => le_trans h2 h1⟩

/-- The pure part of `fetchCommits` (main.js 85-101): trim the raw output,
split into lines, keep the lines with at least 4 fields, sort descending by
timestamp.  A stable insertion sort models the (stable) JS `Array.sort`. -/
def parseCommits (raw : String) : List Commit :=
  List.insertionSort commitOrder ((jsSplit '\n' (jsTrim raw)).filterMap parseCommitLine)

/-! ### Sub-branch classifier (main.js 196-326) -/

/-- The stack loop of `collectConnectedCommits` (main.js 212-245).  The Lean
list models the JS array stack with its head at the array's end, so `pop`
takes the head and pushing `parents ++ children` prepends their reverse.  A
hash is collected only when it is not already collected, not on the lineage,
not excluded, not claimed by an earlier component, and has a loaded commit;
its parents and children are then pushed unless they are on the lineage,
excluded, or already collected. -/
def collectAux (idx : String → Option Commit) (children : String → List String)
    (lineage exclude processed : List String) :
    Nat → List String → List String → List String
  | 0, _, acc => acc
  | _+1, [], acc => acc
  | fuel+1, currentHash :: rest, acc =>
    if currentHash ∈ acc then
      collectAux idx children lineage exclude processed fuel rest acc
    else if currentHash ∈ lineage then
      collectAux idx children lineage exclude processed fuel rest acc
    else if currentHash ∈ exclude then
      collectAux idx children lineage exclude processed fuel rest acc
    else if currentHash ∈ processed then
      collectAux idx children lineage exclude processed fuel rest acc
    else
      match idx currentHash with
      | none => collectAux idx children lineage exclude processed fuel rest acc
      | some cur =>
        let acc' := acc ++ [currentHash]
        let ps := cur.parents.filter
          (fun p => decide (p ∉ lineage ∧ p ∉ exclude ∧ p ∉ acc'))
        let cs := (children currentHash).filter
          (fun ch => decide (ch ∉ lineage ∧ ch ∉ exclude ∧ ch ∉ acc'))
        collectAux idx children lineage exclude processed fuel
          ((ps ++ cs).reverse ++ rest) acc'

/-- Fuel that suffices for every run of the stack loop: one pop for the
start hash plus at most one push per parent-list entry and per child-list
entry of every loaded commit. -/
def collectFuel (allCommits : List Commit) : Nat :=
  (allCommits.foldl
    (fun n c => n + 1 + c.parents.length + (hashToChildren allCommits c.hash).length) 0) + 2

/-- `collectConnectedCommits` (main.js 212-245): undirected reachability from
`startHash` over parent and child edges, bounded by the lineage, the
exclusion set and the already claimed hashes. -/
def collectConnectedCommits (idx : String → Option Commit) (children : String → List String)
    (lineage exclude processed : List String) (fuel : Nat) (startHash : String) : List String :=
  collectAux idx children lineage exclude processed fuel [startHash] []

/-- `isValidSubBranch` (main.js 248-259): every member with a loaded commit
has all its parents on the lineage or inside the member set. -/
def isValidSubBranch (idx : String → Option Commit) (lineage commitSet : List String) : Bool :=
  commitSet.all (fun h =>
    match idx h with
    | none => true
    | some c => c.parents.all (fun p => decide (p ∈ lineage ∨ p ∈ commitSet)))

/-- `findMergeCommitOnLineage` (main.js 262-273): the first hash of the
target lineage, in its insertion order, whose loaded commit has at least two
parents with some non-first parent inside the member set. -/
def findMergeCommitOnLineage (idx : String → Option Commit)
    (commitSet targetLineage : List String) : Option String :=
  targetLineage.find? (fun h =>
    match idx h with
    | none => false
    | some c => decide (2 ≤ c.parents.length) &&
        (c.parents.drop 1).any (fun p => decide (p ∈ commitSet)))

/-- `findBranchPoint` (main.js 276-287): the first parent on the lineage of
the first member, in insertion order, that has one. -/
def findBranchPoint (idx : String → Option Commit)
    (lineage commitSet : List String) : Option String :=
  commitSet.findSome? (fun h =>
    match idx h with
    | none => none
    | some c => c.parents.find? (fun p => decide (p ∈ lineage)))

/-- Loop state of the outer loop of `findSubBranches`: the sub-branches
pushed so far and the `processedCommits` claim set. -/
structure SBState where
  subBranches : List SubBranch
  processed : List String

/-- One iteration of the outer loop of `findSubBranches` (main.js 290-323):
skip lineage, excluded and claimed hashes; collect the connected component;
keep it only if it is non-empty and valid; then include it when it merges
into this lineage or into no other key-branch lineage, recording its merge
commit, branch point and members, and claiming its hashes.  The JS
`otherLineage === lineage` reference comparison is modelled by structural
inequality, faithful whenever the caller passes pairwise distinct lineage
sets (as `renderGraph` does for distinct selections). -/
def findSubBranchesStep (idx : String → Option Commit) (children : String → List String)
    (fuel : Nat) (lineage exclude : List String) (allLineages : List (List String))
    (st : SBState) (c : Commit) : SBState :=
  if c.hash ∈ lineage then st
  else if c.hash ∈ exclude then st
  else if c.hash ∈ st.processed then st
  else
    let sbc := collectConnectedCommits idx children lineage exclude st.processed fuel c.hash
    if 0 < sbc.length ∧ isValidSubBranch idx lineage sbc = true then
      let mergeOnThis := findMergeCommitOnLineage idx sbc lineage
      let mergedOther := allLineages.any
        (fun ol => decide (ol ≠ lineage) && (findMergeCommitOnLineage idx sbc ol).isSome)
      if mergeOnThis.isSome || !mergedOther then
        ⟨st.subBranches ++ [⟨mergeOnThis, findBranchPoint idx lineage sbc, sbc⟩],
          st.processed ++ sbc⟩
      else st
    else st

/-- `findSubBranches` (main.js 196-326).  `lineage` is the owning lineage,
`exclude` the hashes of the other selected lineages, `allLineages` the
lineage sets of all selected branches. -/
def findSubBranches (allCommits : List Commit) (lineage exclude : List String)
    (allLineages : List (List String)) : List SubBranch :=
  (allCommits.foldl
    (findSubBranchesStep (hashToCommit allCommits) (hashToChildren allCommits)
      (collectFuel allCommits) lineage exclude allLineages)
    ⟨[], []⟩).subBranches

/-! ### Layout engine (main.js 339-553) -/

/-- JS `Array.prototype.findIndex` on the commit row order: the row of the
first commit with the given hash, `-1` when absent (main.js 434 etc.). -/
def rowOf (allCommits : List Commit) (h : String) : Int :=
  match allCommits.findIdx? (fun c => c.hash == h) with
  | some i => (i : Int)
  | none => -1

/-- Start-row fallback of main.js 437-445: scan the member hashes keeping the
row of the member with the strictly largest timestamp seen so far (the
`-Infinity` seed is modelled by `none`). -/
def startRowFallback (allCommits : List Commit) (idx : String → Option Commit)
    (hs : List String) : Int :=
  (hs.foldl
    (fun (p : Option Int × Int) h =>
      match idx h with
      | none => p
      | some c =>
        match p.1 with
        | none => (some c.timestamp, rowOf allCommits h)
        | some best =>
          if best < c.timestamp then (some c.timestamp, rowOf allCommits h) else p)
    (none, -1)).2

/-- End-row fallback of main.js 453-461: scan the member hashes keeping the
row of the member with the strictly smallest timestamp seen so far (the
`Infinity` seed is modelled by `none`). -/
def endRowFallback (allCommits : List Commit) (idx : String → Option Commit)
    (hs : List String) : Int :=
  (hs.foldl
    (fun (p : Option Int × Int) h =>
      match idx h with
      | none => p
      | some c =>
        match p.1 with
        | none => (some c.timestamp, rowOf allCommits h)
        | some best =>
          if c.timestamp < best then (some c.timestamp, rowOf allCommits h) else p)
    (none, -1)).2

/-- Start row of a sub-branch span (main.js 431-445): the branch point's row
when it exists and is found, otherwise the fallback scan. -/
def startRowOf (allCommits : List Commit) (idx : String → Option Commit)
    (sb : SubBranch) : Int :=
  let fromBP : Int :=
    match sb.branchPoint with
    | some bp => rowOf allCommits bp
    | none => -1
  if fromBP < 0 then startRowFallback allCommits idx sb.commits else fromBP

/-- End row of a sub-branch span (main.js 448-461): the merge commit's row
when the sub-branch is merged, otherwise the fallback scan. -/
def endRowOf (allCommits : List Commit) (idx : String → Option Commit)
    (sb : SubBranch) : Int :=
  match sb.mergeCommit with
  | some m => rowOf allCommits m
  | none => endRowFallback allCommits idx sb.commits

/-- A sub-branch with its computed span rows (main.js 430-464). -/
structure SpannedSB where
  sb : SubBranch
  startRow : Int
  endRow : Int
deriving DecidableEq

/-- Sort order of main.js 468-470: descending start row (older branch point
first); the stable sort keeps ties in input order. -/
def subSpanOrder (a b : SpannedSB) : Prop := b.startRow ≤ a.startRow

instance : DecidableRel subSpanOrder := fun a b => inferInstanceAs (Decidable (_ ≤ _))

instance : IsTotal SpannedSB subSpanOrder := ⟨fun a b => le_total b.startRow a.startRow⟩

instance : IsTrans SpannedSB subSpanOrder := ⟨fun _ _ _ h1 h2 => le_trans h2 h1⟩

/-- The integer rows `spanStart, spanStart+1, ..., spanEnd-1` iterated by the
`for (let row = spanStart; row < spanEnd; row++)` loops (main.js 486, 497). -/
def spanRows (spanStart spanEnd : Int) : List Int :=
  (List.range (spanEnd - spanStart).toNat).map (fun k => spanStart + (k : Int))

/-- Lookup in the `rowOffsetUsage` map (main.js 426, 487): offsets reserved
for a row, empty when the row has no entry yet. -/
def usageAt (usage : List (Int × List Nat)) (row : Int) : List Nat :=
  match usage.find? (fun e => e.1 == row) with
  | some e => e.2
  | none => []

/-- Reserve an offset for one row (main.js 497-502). -/
def usageAdd (usage : List (Int × List Nat)) (row : Int) (o : Nat) : List (Int × List Nat) :=
  if usage.any (fun e => e.1 == row) then
    usage.map (fun e => if e.1 == row then (e.1, e.2 ++ [o]) else e)
  else usage ++ [(row, [o])]

def usageAddSpan (usage : List (Int × List Nat)) (rows : List Int) (o : Nat) :
    List (Int × List Nat) :=
  rows.foldl (fun u r => usageAdd u r o) usage

/-- The collision scan of main.js 481-494: starting at offset 1, repeatedly
move to the next offset while some row of the span already reserves the
current one; this returns the least offset not blocked on any row of the
span.  The fuel `blocked.length + 1` always suffices: among the first
`blocked.length + 1` candidate offsets at least one is unblocked. -/
def leastFreeOffsetAux (blocked : List Nat) : Nat → Nat → Nat
  | 0, o => o
  | f+1, o => if o ∈ blocked then leastFreeOffsetAux blocked f (o + 1) else o

def leastFreeOffset (blocked : List Nat) : Nat :=
  leastFreeOffsetAux blocked (blocked.length + 1) 1

/-- One iteration of the offset-assignment loop (main.js 472-513): compute
the span, find the least free offset over it, reserve it for every row of
the span, and record the assignment. -/
def assignOffsetsStep (st : List (SubBranch × Nat) × List (Int × List Nat))
    (ssb : SpannedSB) : List (SubBranch × Nat) × List (Int × List Nat) :=
  let spanStart := min ssb.startRow ssb.endRow
  let spanEnd := max ssb.startRow ssb.endRow
  let rows := spanRows spanStart spanEnd
  let blocked := rows.flatMap (usageAt st.2)
  let o := leastFreeOffset blocked
  (st.1 ++ [(ssb.sb, o)], usageAddSpan st.2 rows o)

/-- The per-lineage collision-avoidance pass (main.js 424-514): span
computation, stable sort by descending start row, then greedy least-free
offset assignment; the result pairs each sub-branch with its offset in
processing order. -/
def assignOffsets (allCommits : List Commit) (idx : String → Option Commit)
    (subBranches : List SubBranch) : List (SubBranch × Nat) :=
  let spanned := subBranches.map
    (fun sb => SpannedSB.mk sb (startRowOf allCommits idx sb) (endRowOf allCommits idx sb))
  let sorted := List.insertionSort subSpanOrder spanned
  (sorted.foldl assignOffsetsStep ([], [])).1

/-! ### Column assignment and placements (main.js 399-553) -/

/-- Value stored in the `commitColumn` map (main.js 400-409). -/
structure ColInfo where
  mainCol : Nat
  subOffset : Nat
  isSubBranchMember : Bool
  subBranchId : Option Nat
deriving DecidableEq

/-- One selected branch with its traced lineage and its sub-branches
(main.js 377-388). -/
structure BranchLineage where
  name : String
  lineage : List String
  subBranches : List SubBranch
deriving DecidableEq

/-- Pairing of list elements with their indices, head first; used to model
`forEach((x, i) => ...)` loops. -/
def enumFrom (i : Nat) : List α → List (Nat × α)
  | [] => []
  | x :: xs => (i, x) :: enumFrom (i + 1) xs

/-- The lineage computation of `renderGraph` (main.js 361-388): trace every
selected branch, then classify sub-branches per lineage, excluding the other
selected lineages (union in selection order) and passing all lineage sets
for merge detection. -/
def computeBranchLineages (allCommits : List Commit) (allBranches : List Branch)
    (selectedBranches : List String) : List BranchLineage :=
  let allLineages := selectedBranches.map
    (fun nm => (nm, getFirstParentLineage allCommits allBranches nm))
  let allSets := allLineages.map Prod.snd
  allLineages.map (fun p =>
    let others := (allLineages.filter (fun o => o.1 ≠ p.1)).flatMap Prod.snd
    ⟨p.1, p.2, findSubBranches allCommits p.2 others allSets⟩)

/-- Sub-branch writes into `commitColumn` for one lineage (main.js 472-512):
each assigned sub-branch, in processing order, writes every member with the
lineage's column, its offset, the sub-branch flag and its id. -/
def subColumnWrites (assigned : List (SubBranch × Nat)) (branchIndex startId : Nat) :
    List (String × ColInfo) :=
  (enumFrom 0 assigned).flatMap (fun e =>
    e.2.1.commits.map (fun h =>
      (h, ColInfo.mk branchIndex e.2.2 true (some (startId + e.1)))))

/-- All writes into the `commitColumn` map in program order (main.js
399-514): defaults to the Other column, then lineage members at offset 0,
then sub-branch members with their offsets; `subBranchIdCounter` runs over
all lineages. -/
def columnWrites (allCommits : List Commit) (bls : List BranchLineage) :
    List (String × ColInfo) :=
  let n := bls.length
  let defaults := allCommits.map (fun c => (c.hash, ColInfo.mk n 0 false none))
  let lineageWrites := (enumFrom 0 bls).flatMap
    (fun e => e.2.lineage.map (fun h => (h, ColInfo.mk e.1 0 false none)))
  let subWrites := ((enumFrom 0 bls).foldl
    (fun (st : List (String × ColInfo) × Nat) e =>
      let assigned := assignOffsets allCommits (hashToCommit allCommits) e.2.subBranches
      (st.1 ++ subColumnWrites assigned e.1 st.2, st.2 + assigned.length))
    ([], 0)).1
  defaults ++ lineageWrites ++ subWrites

/-- Lookup in the `commitColumn` map: the last write for the hash wins. -/
def commitColumnOf (allCommits : List Commit) (bls : List BranchLineage)
    (h : String) : Option ColInfo :=
  ((columnWrites allCommits bls).reverse.find? (fun e => e.1 == h)).map (fun e => e.2)

/-- `maxOffset` scan for one column (main.js 524-531). -/
def maxOffsetIn (allCommits : List Commit) (bls : List BranchLineage) (i : Nat) : Nat :=
  allCommits.foldl
    (fun m c =>
      match commitColumnOf allCommits bls c.hash with
      | some ci => if ci.mainCol = i ∧ m < ci.subOffset then ci.subOffset else m
      | none => m)
    0

/-- `columnStartX` (main.js 517-534): base x of each main column,
accumulating a fixed width of 150 plus 30 per used offset, starting at the
left padding of 50. -/
def columnStartX (allCommits : List Commit) (bls : List BranchLineage) : Nat → Int
  | 0 => 50
  | i+1 => columnStartX allCommits bls i + 150 + (maxOffsetIn allCommits bls i : Int) * 30

/-- Entry of the `positions` map (main.js 537-553). -/
structure Placement where
  col : Nat
  subOffset : Nat
  row : Nat
  x : Int
  y : Int
  isSubBranchMember : Bool
  subBranchId : Option Nat
deriving DecidableEq

/-- The `positions` map (main.js 537-553): one entry per loaded commit,
keyed by hash (so for a duplicated hash the last row wins), with
`y = 50 + row * 30` and `x = columnStartX(col) + subOffset * 30`. -/
def positionOf (allCommits : List Commit) (bls : List BranchLineage)
    (h : String) : Option Placement :=
  match (enumFrom 0 allCommits).reverse.find? (fun e => e.2.hash == h) with
  | none => none
  | some e =>
    match commitColumnOf allCommits bls h with
    | none => none
    | some ci =>
      some ⟨ci.mainCol, ci.subOffset, e.1,
        columnStartX allCommits bls ci.mainCol + (ci.subOffset : Int) * 30,
        50 + (e.1 : Int) * 30, ci.isSubBranchMember, ci.subBranchId⟩

/-! ### Edge classifier (main.js 667-712) -/

/-- `isOtherEdge` (main.js 674): either endpoint sits in the Other column. -/
def isOtherEdge (childPos parentPos : Placement) (lineageCount : Nat) : Bool :=
  decide (childPos.col = lineageCount) || decide (parentPos.col = lineageCount)

/-- `isSubBranchEdge` (main.js 693): either endpoint is flagged as a
sub-branch member. -/
def isSubBranchEdge (childPos parentPos : Placement) : Bool :=
  childPos.isSubBranchMember || parentPos.isSubBranchMember

/-- `isMainlineEdge` (main.js 694): not a sub-branch edge, not an Other
edge, and the child endpoint sits in a lineage column. -/
def isMainlineEdge (childPos parentPos : Placement) (lineageCount : Nat) : Bool :=
  !isSubBranchEdge childPos parentPos && !isOtherEdge childPos parentPos lineageCount &&
    decide (childPos.col < lineageCount)

/-! ### Interaction state: wheel zoom (main.js 917-945) -/

/-- The part of the module state that the Ctrl/Cmd wheel branch reads and
writes: the vertical zoom factor and the vertical pan offset.  A graph-space
coordinate `g` is displayed at screen position `g * timeZoom + panY`
(main.js 874-889). -/
structure ZoomPan where
  timeZoom : Rat
  panY : Rat
deriving DecidableEq

/-- The Ctrl/Cmd branch of the wheel handler (main.js 920-935): pick the
factor from the wheel direction, clamp the new zoom to `[0.1, 5]`, and solve
the new pan so the graph point under the cursor stays put. -/
def wheelZoom (st : ZoomPan) (deltaYPos : Bool) (mouseY : Rat) : ZoomPan :=
  let zoomFactor : Rat := if deltaYPos then (9 : Rat) / 10 else (11 : Rat) / 10
  let minZoom : Rat := (1 : Rat) / 10
  let maxZoom : Rat := 5
  let newTimeZoom := max minZoom (min maxZoom (st.timeZoom * zoomFactor))
  let graphY := mouseY - st.panY
  ⟨newTimeZoom, mouseY - graphY * (newTimeZoom / st.timeZoom)⟩

/-- Two sub-branches with no common member hash. -/
def SBDisjoint (s t : SubBranch) : Prop :=
  ∀ h, h ∈ s.commits → h ∈ t.commits → False

/-! ### Concrete inputs used by the theorems below -/

/-- Scenario B of the spec (§8): timestamps are scaled by 2 so the spec's
`t = 1.5` for `f1` stays integral; only the descending-timestamp row order
`c3, c2, f1, c1` matters to the classifier. -/
def scnBcommits : List Commit :=
  [⟨"c3", ["c2", "f1"], 6, "m3"⟩, ⟨"c2", ["c1"], 4, "m2"⟩,
   ⟨"f1", ["c1"], 3, "feature"⟩, ⟨"c1", [], 2, "m1"⟩]

def scnBbranches : List Branch := [⟨"main", "c3"⟩]

/-- The lineage `{c3, c2, c1}` in the insertion order produced by
`getFirstParentLineage` from the `main` tip. -/
def scnBlineage : List String := ["c3", "c2", "c1"]

/-- Commit pair whose first-parent links form a cycle (malformed input for
the termination claim). -/
def cycleCommits : List Commit := [⟨"c1", ["c2"], 2, "a"⟩, ⟨"c2", ["c1"], 1, "b"⟩]

/-- Input for the lineage-membership claim: the single loaded commit points
at a parent `m0` outside the loaded window. -/
def missingParentCommits : List Commit := [⟨"c1", ["m0"], 1, "root"⟩]

def missingParentBranches : List Branch := [⟨"main", "c1"⟩]

/-- Input for the unmerged-ownership claim: `x` is an isolated commit, and
`main` / `dev` are two selected root branches. -/
def isoCommits : List Commit :=
  [⟨"x", [], 3, "mx"⟩, ⟨"a", [], 2, "ma"⟩, ⟨"b", [], 1, "mb"⟩]

def isoBranches : List Branch := [⟨"main", "a"⟩, ⟨"dev", "b"⟩]

/-- Input for the mainline-edge claim: two selected branches whose lineages
share the root commit `b`, so the edge from `a` (column 0) to `b` (column 1,
the later lineage write wins) joins two different lineage columns. -/
def sharedRootCommits : List Commit :=
  [⟨"a", ["b"], 3, "ma"⟩, ⟨"d", ["b"], 2, "md"⟩, ⟨"b", [], 1, "mb"⟩]

def sharedRootBranches : List Branch := [⟨"main", "a"⟩, ⟨"dev", "d"⟩]

def sharedRootBls : List BranchLineage :=
  computeBranchLineages sharedRootCommits sharedRootBranches ["main", "dev"]

/-- Input for the collision claim witness: two feature branches merged into
one mainline over disjoint row spans, so both get offset 1. -/
def twoFeatureCommits : List Commit :=
  [⟨"m4", ["m3", "f2"], 8, "w4"⟩, ⟨"f2", ["m3"], 7, "w5"⟩, ⟨"m3", ["m2"], 6, "w3"⟩,
   ⟨"m2", ["m1", "f1"], 5, "w2"⟩, ⟨"f1", ["m1"], 4, "w6"⟩, ⟨"m1", [], 3, "w1"⟩]

def twoFeatureBranches : List Branch := [⟨"main", "m4"⟩]

def twoFeatureBls : List BranchLineage :=
  computeBranchLineages twoFeatureCommits twoFeatureBranches ["main"]

/-- Input for the merge-precedence claim witness: the component `{x}` is
merged into the `main` lineage by `m2` and into the `dev` lineage by `n2`. -/
def dualMergeCommits : List Commit :=
  [⟨"m2", ["m1", "x"], 5, "t2"⟩, ⟨"n2", ["n1", "x"], 4, "t4"⟩, ⟨"x", ["m1"], 3, "t5"⟩,
   ⟨"m1", [], 2, "t1"⟩, ⟨"n1", [], 1, "t3"⟩]

/-- Input for the malformed-feed claim witness (scenario C of §8). -/
def scnCraw : String := "h1|p1|3|m1\nshort|line\nh2||1|m2"

/-- Single-lineage three-commit chain (scenario A of §8), used as a witness
input for the mainline-edge claim. -/
def chainCommits : List Commit :=
  [⟨"c3", ["c2"], 3, "m3"⟩, ⟨"c2", ["c1"], 2, "m2"⟩, ⟨"c1", [], 1, "m1"⟩]

def chainBranches : List Branch := [⟨"main", "c3"⟩]

def chainBls : List BranchLineage :=
  computeBranchLineages chainCommits chainBranches ["main"]

/-! ### Theorems -/

/-- Claim C6: after a Ctrl/Cmd wheel zoom at cursor position `mouseY`, the
graph-space coordinate that was displayed at `mouseY` before the zoom is
displayed at exactly `mouseY` after it, over exact rational arithmetic. -/
theorem c6_wheelZoom_anchors (st : ZoomPan) (d : Bool) (mouseY g : Rat)
    (hz : st.timeZoom ≠ 0) (hg : st.timeZoom * g + st.panY = mouseY) :
    (wheelZoom st d mouseY).timeZoom * g + (wheelZoom st d mouseY).panY = mouseY := by
  have hgy : mouseY - st.panY = st.timeZoom * g := by linarith
  unfold wheelZoom
  dsimp only
  rw [hgy]
  field_simp
  ring

/-- Witness for C6 at `timeZoom = 1`, `panY = 0`, `mouseY = 2`, `g = 2`. -/
theorem c6_wheelZoom_anchors_witness :
    (wheelZoom ⟨1, 0⟩ false 2).timeZoom * 2 + (wheelZoom ⟨1, 0⟩ false 2).panY = 2 :=
  c6_wheelZoom_anchors ⟨1, 0⟩ false 2 2 (by norm_num) (by norm_num)

/-- Claim C7: on scenario B, with the single lineage `{c3, c2, c1}` (exactly
the set traced from the `main` tip), the classifier returns exactly one
sub-branch with member set `{f1}`, merge commit `c3` and branch point `c1`. -/
theorem c7_scenarioB :
    getFirstParentLineage scnBcommits scnBbranches "main" = scnBlineage ∧
    findSubBranches scnBcommits scnBlineage [] [scnBlineage] =
      [⟨some "c3", some "c1", ["f1"]⟩] := by decide

/-- Claim C9: a feed line with fewer than 4 `|`-separated fields produces no
commit record (and the total parser raises nothing), and the parsed sequence
is sorted descending by timestamp. -/
theorem c9_malformed_skipped_sorted (raw : String) :
    (∀ line ∈ jsSplit '\n' (jsTrim raw), (jsSplit '|' line).length < 4 →
      parseCommitLine line = none) ∧
    (parseCommits raw).Sorted commitOrder := by
  constructor
  · intro line _ hlen
    simp only [parseCommitLine]
    rw [if_neg (by omega)]
  · exact List.sorted_insertionSort commitOrder _

/-- Witness for C9 on scenario C's feed: the 2-field line is skipped and the
output of the parser is sorted. -/
theorem c9_malformed_skipped_sorted_witness :
    parseCommitLine "short|line" = none ∧ (parseCommits scnCraw).Sorted commitOrder :=
  ⟨(c9_malformed_skipped_sorted scnCraw).1 "short|line" (by decide) (by decide),
   (c9_malformed_skipped_sorted scnCraw).2⟩

/-- On the cyclic two-commit input the while loop of `getFirstParentLineage`
is still running after any number of iterations, whichever of the two hashes
it is at. -/
theorem cycle_lineageAux_never_ends :
    ∀ (fuel : Nat) (h : String) (acc : List String), h = "c1" ∨ h = "c2" →
      (lineageAux (hashToCommit cycleCommits) fuel h acc).2 = false := by
  intro fuel
  induction fuel with
  | zero => intro h acc _; rfl
  | succ f ih =>
    intro h acc hh
    rcases hh with rfl | rfl
    · exact ih "c2" (if "c1" ∈ acc then acc else acc ++ ["c1"]) (Or.inr rfl)
    · exact ih "c1" (if "c2" ∈ acc then acc else acc ++ ["c2"]) (Or.inl rfl)

/-- Claim C3 fails on the code: on a loaded set whose first-parent links form
a cycle, the lineage walk of `getFirstParentLineage` never reaches its exit
condition — in particular it does not terminate within `|commits| = 2`
iterations; the source has no iteration bound at all. -/
theorem c3_cycle_walk_never_terminates (fuel : Nat) :
    (lineageAux (hashToCommit cycleCommits) fuel "c1" []).2 = false :=
  cycle_lineageAux_never_ends fuel "c1" [] (Or.inl rfl)

/-- Every hash the lineage loop has added so far except possibly the hash it
stopped at has a loaded commit: a member without an index entry can only be
the last element of the walk. -/
theorem lineageAux_missing_last (idx : String → Option Commit) :
    ∀ (fuel : Nat) (cur : String) (acc : List String),
      (∀ g ∈ acc, (idx g).isSome = true) →
      ∀ h ∈ (lineageAux idx fuel cur acc).1, idx h = none →
        (lineageAux idx fuel cur acc).1.getLast? = some h := by
  intro fuel
  induction fuel with
  | zero =>
    intro cur acc hacc h hmem hnone
    have := hacc h hmem
    rw [hnone] at this
    simp at this
  | succ f ih =>
    intro cur acc hacc h hmem hnone
    by_cases hemp : cur = ""
    · have hstep : lineageAux idx (f+1) cur acc = (acc, true) := by
        simp only [lineageAux]; rw [if_pos hemp]
      rw [hstep] at hmem ⊢
      have := hacc h hmem
      rw [hnone] at this
      simp at this
    · rcases hidx : idx cur with _ | c
      · have hstep : lineageAux idx (f+1) cur acc =
            (if cur ∈ acc then acc else acc ++ [cur], true) := by
          simp only [lineageAux]; rw [if_neg hemp, hidx]
        rw [hstep] at hmem ⊢
        by_cases hin : cur ∈ acc
        · rw [if_pos hin] at hmem ⊢
          have := hacc h hmem
          rw [hnone] at this
          simp at this
        · rw [if_neg hin] at hmem ⊢
          rcases List.mem_append.mp hmem with hold | hnew
          · have := hacc h hold
            rw [hnone] at this
            simp at this
          · have hh : h = cur := by simpa using hnew
            subst hh
            simp [List.getLast?_append]
      · rcases hpar : c.parents with _ | ⟨p, ps⟩
        · have hstep : lineageAux idx (f+1) cur acc =
              (if cur ∈ acc then acc else acc ++ [cur], true) := by
            simp only [lineageAux]; rw [if_neg hemp, hidx]; dsimp only; rw [hpar]
          rw [hstep] at hmem ⊢
          by_cases hin : cur ∈ acc
          · rw [if_pos hin] at hmem ⊢
            have := hacc h hmem
            rw [hnone] at this
            simp at this
          · rw [if_neg hin] at hmem ⊢
            rcases List.mem_append.mp hmem with hold | hnew
            · have := hacc h hold
              rw [hnone] at this
              simp at this
            · have hh : h = cur := by simpa using hnew
              subst hh
              rw [hidx] at hnone
              simp at hnone
        · have hstep : lineageAux idx (f+1) cur acc =
              lineageAux idx f p (if cur ∈ acc then acc else acc ++ [cur]) := by
            simp only [lineageAux]; rw [if_neg hemp, hidx]; dsimp only; rw [hpar]
          rw [hstep] at hmem ⊢
          refine ih p _ ?_ h hmem hnone
          intro g hg
          by_cases hin : cur ∈ acc
          · rw [if_pos hin] at hg
            exact hacc g hg
          · rw [if_neg hin] at hg
            rcases List.mem_append.mp hg with hold | hnew
            · exact hacc g hold
            · have hh : g = cur := by simpa using hnew
              subst hh
              rw [hidx]
              rfl

/-- Claim C8, amended: the lineage trace is the walk from the tip along
first parents, and the hash at which the walk stops is added before the
missing-entry check, so a member without an entry in the loaded commit index
can only be the final hash of the returned lineage. -/
theorem c8_missing_member_is_last (allCommits : List Commit) (allBranches : List Branch)
    (branchName h : String)
    (hmem : h ∈ getFirstParentLineage allCommits allBranches branchName)
    (hnone : hashToCommit allCommits h = none) :
    (getFirstParentLineage allCommits allBranches branchName).getLast? = some h := by
  unfold getFirstParentLineage at hmem ⊢
  cases hfind : allBranches.find? (fun b => b.name == branchName) with
  | none => rw [hfind] at hmem; simp at hmem
  | some b =>
    rw [hfind] at hmem
    dsimp only at hmem ⊢
    exact lineageAux_missing_last (hashToCommit allCommits)
      (lineageFuel allCommits) b.hash [] (by intro g hg; simp at hg) h hmem hnone

/-- Witness for the amended C8: on the input with the unloaded parent `m0`,
the missing hash is the last lineage element. -/
theorem c8_missing_member_is_last_witness :
    (getFirstParentLineage missingParentCommits missingParentBranches "main").getLast? =
      some "m0" :=
  c8_missing_member_is_last missingParentCommits missingParentBranches "main" "m0"
    (by decide) (by decide)

/-- Counterexample to C8 as stated: the returned lineage contains `m0`,
which has no entry in the loaded commit index. -/
theorem c8_counterexample :
    "m0" ∈ getFirstParentLineage missingParentCommits missingParentBranches "main" ∧
      hashToCommit missingParentCommits "m0" = none := by decide

/-- Counterexample to C2 as stated: the isolated unmerged commit `x` appears
in the sub-branch results of both selected lineages (the claim says it
should appear only in the first), because the `processedCommits` claim set
is local to each `findSubBranches` call. -/
theorem c2_counterexample :
    (computeBranchLineages isoCommits isoBranches ["main", "dev"]).map
      (fun bl => bl.subBranches.map (fun sb => sb.commits)) = [[["x"]], [["x"]]] := by
  decide

/-- Counterexample to C5 as stated: on the shared-root two-lineage input the
edge from `a` (column 0) to `b` (column 1) is classified as mainline even
though its endpoints sit in different columns. -/
theorem c5_counterexample :
    positionOf sharedRootCommits sharedRootBls "a" = some ⟨0, 0, 0, 50, 50, false, none⟩ ∧
    positionOf sharedRootCommits sharedRootBls "b" = some ⟨1, 0, 2, 200, 110, false, none⟩ ∧
    isMainlineEdge ⟨0, 0, 0, 50, 50, false, none⟩ ⟨1, 0, 2, 200, 110, false, none⟩
      sharedRootBls.length = true ∧
    ¬ ((⟨0, 0, 0, 50, 50, false, none⟩ : Placement).col =
        (⟨1, 0, 2, 200, 110, false, none⟩ : Placement).col) := by
  refine ⟨by decide, by decide, by decide, by decide⟩

/-- Every hash the stack loop collects passes its entry guards: it is not on
the lineage, not excluded, not claimed earlier, and has a loaded commit. -/
theorem collectAux_mem_inv (idx : String → Option Commit) (children : String → List String)
    (lineage exclude processed : List String) :
    ∀ (fuel : Nat) (stack acc : List String),
      (∀ g ∈ acc, g ∉ lineage ∧ g ∉ exclude ∧ g ∉ processed ∧ (idx g).isSome = true) →
      ∀ h ∈ collectAux idx children lineage exclude processed fuel stack acc,
        h ∉ lineage ∧ h ∉ exclude ∧ h ∉ processed ∧ (idx h).isSome = true := by
  intro fuel
  induction fuel with
  | zero => intro stack acc hacc h hmem; exact hacc h hmem
  | succ f ih =>
    intro stack acc hacc h hmem
    match stack with
    | [] => exact hacc h hmem
    | currentHash :: rest =>
      rw [collectAux] at hmem
      by_cases h1 : currentHash ∈ acc
      · rw [if_pos h1] at hmem; exact ih rest acc hacc h hmem
      · rw [if_neg h1] at hmem
        by_cases h2 : currentHash ∈ lineage
        · rw [if_pos h2] at hmem; exact ih rest acc hacc h hmem
        · rw [if_neg h2] at hmem
          by_cases h3 : currentHash ∈ exclude
          · rw [if_pos h3] at hmem; exact ih rest acc hacc h hmem
          · rw [if_neg h3] at hmem
            by_cases h4 : currentHash ∈ processed
            · rw [if_pos h4] at hmem; exact ih rest acc hacc h hmem
            · rw [if_neg h4] at hmem
              rcases hidx : idx currentHash with _ | cur
              · rw [hidx] at hmem; exact ih rest acc hacc h hmem
              · rw [hidx] at hmem
                dsimp only at hmem
                refine ih _ _ ?_ h hmem
                intro g hg
                rcases List.mem_append.mp hg with hold | hnew
                · exact hacc g hold
                · have hg' : g = currentHash := by simpa using hnew
                  subst hg'
                  exact ⟨h2, h3, h4, by rw [hidx]; rfl⟩

/-- Case analysis of one outer-loop iteration of `findSubBranches`: either
the state is unchanged, or a collected, non-empty, valid component is pushed
and claimed. -/
theorem findSubBranchesStep_cases (idx : String → Option Commit)
    (children : String → List String) (fuel : Nat) (lineage exclude : List String)
    (allLineages : List (List String)) (st : SBState) (c : Commit) :
    findSubBranchesStep idx children fuel lineage exclude allLineages st c = st ∨
    (c.hash ∉ lineage ∧ c.hash ∉ exclude ∧ c.hash ∉ st.processed ∧
      (let sbc := collectConnectedCommits idx children lineage exclude st.processed fuel c.hash
       0 < sbc.length ∧ isValidSubBranch idx lineage sbc = true ∧
       findSubBranchesStep idx children fuel lineage exclude allLineages st c =
         ⟨st.subBranches ++
            [⟨findMergeCommitOnLineage idx sbc lineage, findBranchPoint idx lineage sbc, sbc⟩],
          st.processed ++ sbc⟩)) := by
  rw [findSubBranchesStep]
  by_cases h1 : c.hash ∈ lineage
  · rw [if_pos h1]; exact Or.inl rfl
  · rw [if_neg h1]
    by_cases h2 : c.hash ∈ exclude
    · rw [if_pos h2]; exact Or.inl rfl
    · rw [if_neg h2]
      by_cases h3 : c.hash ∈ st.processed
      · rw [if_pos h3]; exact Or.inl rfl
      · rw [if_neg h3]
        dsimp only
        by_cases h4 : 0 < (collectConnectedCommits idx children lineage exclude
            st.processed fuel c.hash).length ∧
            isValidSubBranch idx lineage (collectConnectedCommits idx children lineage exclude
              st.processed fuel c.hash) = true
        · rw [if_pos h4]
          by_cases h5 : ((findMergeCommitOnLineage idx (collectConnectedCommits idx children
                lineage exclude st.processed fuel c.hash) lineage).isSome ||
              !(allLineages.any (fun ol => decide (ol ≠ lineage) &&
                (findMergeCommitOnLineage idx (collectConnectedCommits idx children lineage
                  exclude st.processed fuel c.hash) ol).isSome))) = true
          · rw [if_pos h5]
            exact Or.inr ⟨h1, h2, h3, h4.1, h4.2, rfl⟩
          · rw [if_neg h5]; exact Or.inl rfl
        · rw [if_neg h4]; exact Or.inl rfl

/-- Sub-branches already pushed survive the rest of the outer loop. -/
theorem sbFold_mono (idx : String → Option Commit) (children : String → List String)
    (fuel : Nat) (lineage exclude : List String) (allLineages : List (List String)) :
    ∀ (l : List Commit) (st : SBState) (sb : SubBranch),
      sb ∈ st.subBranches →
      sb ∈ (l.foldl (findSubBranchesStep idx children fuel lineage exclude allLineages)
        st).subBranches := by
  intro l
  induction l with
  | nil => intro st sb hsb; exact hsb
  | cons c cs ih =>
    intro st sb hsb
    rw [List.foldl_cons]
    refine ih _ sb ?_
    rcases findSubBranchesStep_cases idx children fuel lineage exclude allLineages st c with
      heq | ⟨_, _, _, _, _, heq⟩
    · rw [heq]; exact hsb
    · rw [heq]; exact List.mem_append.mpr (Or.inl hsb)

/-- Every sub-branch in the fold state passed the validity check when it was
pushed. -/
theorem sbFold_valid (idx : String → Option Commit) (children : String → List String)
    (fuel : Nat) (lineage exclude : List String) (allLineages : List (List String)) :
    ∀ (l : List Commit) (st : SBState),
      (∀ sb ∈ st.subBranches, isValidSubBranch idx lineage sb.commits = true) →
      ∀ sb ∈ (l.foldl (findSubBranchesStep idx children fuel lineage exclude allLineages)
          st).subBranches,
        isValidSubBranch idx lineage sb.commits = true := by
  intro l
  induction l with
  | nil => intro st hst sb hsb; exact hst sb hsb
  | cons c cs ih =>
    intro st hst sb hsb
    rw [List.foldl_cons] at hsb
    refine ih _ ?_ sb hsb
    rcases findSubBranchesStep_cases idx children fuel lineage exclude allLineages st c with
      heq | ⟨_, _, _, _, hvalid, heq⟩
    · rw [heq]; exact hst
    · rw [heq]
      intro sb' hsb'
      rcases List.mem_append.mp hsb' with hold | hnew
      · exact hst sb' hold
      · rw [List.mem_singleton.mp hnew]
        exact hvalid

/-- Claim C1: every parent hash of every member of a returned sub-branch is
itself a member or on the owning lineage (the validity invariant). -/
theorem c1_subbranch_validity (allCommits : List Commit) (lineage exclude : List String)
    (allLineages : List (List String)) (sb : SubBranch) (h : String) (c : Commit) (p : String)
    (hsb : sb ∈ findSubBranches allCommits lineage exclude allLineages)
    (hh : h ∈ sb.commits) (hc : hashToCommit allCommits h = some c) (hp : p ∈ c.parents) :
    p ∈ sb.commits ∨ p ∈ lineage := by
  rw [findSubBranches] at hsb
  have hvalid := sbFold_valid (hashToCommit allCommits) (hashToChildren allCommits)
    (collectFuel allCommits) lineage exclude allLineages allCommits ⟨[], []⟩
    (by intro sb' hsb'; simp at hsb') sb hsb
  rw [isValidSubBranch, List.all_eq_true] at hvalid
  have hmem := hvalid h hh
  rw [hc] at hmem
  dsimp only at hmem
  rw [List.all_eq_true] at hmem
  have := hmem p hp
  rw [decide_eq_true_iff] at this
  exact this.symm

/-- Witness for C1 at scenario B: the parent `c1` of the member `f1` of the
returned sub-branch lies on the lineage. -/
theorem c1_subbranch_validity_witness :
    "c1" ∈ (SubBranch.mk (some "c3") (some "c1") ["f1"]).commits ∨ "c1" ∈ scnBlineage :=
  c1_subbranch_validity scnBcommits scnBlineage [] [scnBlineage]
    ⟨some "c3", some "c1", ["f1"]⟩ "f1" ⟨"f1", ["c1"], 3, "feature"⟩ "c1"
    (by decide) (by decide) (by decide) (by decide)

/-- Through the outer fold, pushed members are always claimed and the pushed
components are pairwise disjoint. -/
theorem sbFold_disjoint (idx : String → Option Commit) (children : String → List String)
    (fuel : Nat) (lineage exclude : List String) (allLineages : List (List String)) :
    ∀ (l : List Commit) (st : SBState),
      (∀ sb ∈ st.subBranches, ∀ h ∈ sb.commits, h ∈ st.processed) →
      List.Pairwise SBDisjoint st.subBranches →
      (∀ sb ∈ (l.foldl (findSubBranchesStep idx children fuel lineage exclude allLineages)
          st).subBranches,
        ∀ h ∈ sb.commits,
          h ∈ (l.foldl (findSubBranchesStep idx children fuel lineage exclude allLineages)
            st).processed) ∧
      List.Pairwise SBDisjoint
        (l.foldl (findSubBranchesStep idx children fuel lineage exclude allLineages)
          st).subBranches := by
  intro l
  induction l with
  | nil => intro st hcov hpd; exact ⟨hcov, hpd⟩
  | cons c cs ih =>
    intro st hcov hpd
    rw [List.foldl_cons]
    rcases findSubBranchesStep_cases idx children fuel lineage exclude allLineages st c with
      heq | ⟨_, _, _, _, _, heq⟩
    · rw [heq]; exact ih st hcov hpd
    · rw [heq]
      have hfresh : ∀ h ∈ collectConnectedCommits idx children lineage exclude
          st.processed fuel c.hash, h ∉ st.processed := by
        intro h hmem
        exact (collectAux_mem_inv idx children lineage exclude st.processed fuel
          [c.hash] [] (by intro g hg; simp at hg) h hmem).2.2.1
      refine ih _ ?_ ?_
      · intro sb hsb h hh
        rcases List.mem_append.mp hsb with hold | hnew
        · exact List.mem_append.mpr (Or.inl (hcov sb hold h hh))
        · rw [List.mem_singleton.mp hnew] at hh
          exact List.mem_append.mpr (Or.inr hh)
      · rw [List.pairwise_append]
        refine ⟨hpd, List.pairwise_singleton _ _, ?_⟩
        intro a ha b hb h h1 h2
        rw [List.mem_singleton.mp hb] at h2
        exact hfresh h h2 (hcov a ha h h1)

/-- The components returned by one `findSubBranches` call are pairwise
disjoint (claimed hashes are never collected again within the call). -/
theorem findSubBranches_pairwise_disjoint (allCommits : List Commit)
    (lineage exclude : List String) (allLineages : List (List String)) :
    List.Pairwise SBDisjoint (findSubBranches allCommits lineage exclude allLineages) := by
  rw [findSubBranches]
  exact (sbFold_disjoint (hashToCommit allCommits) (hashToChildren allCommits)
    (collectFuel allCommits) lineage exclude allLineages allCommits ⟨[], []⟩
    (by intro sb hsb; simp at hsb) (by simp)).2

/-- The offset-assignment fold records exactly the sorted sub-branches, in
order, as the first components of its output. -/
theorem assignFold_fst :
    ∀ (l : List SpannedSB) (acc : List (SubBranch × Nat)) (u : List (Int × List Nat)),
      ((l.foldl assignOffsetsStep (acc, u)).1).map Prod.fst =
        acc.map Prod.fst ++ l.map SpannedSB.sb := by
  intro l
  induction l with
  | nil => intro acc u; simp
  | cons x xs ih =>
    intro acc u
    rw [List.foldl_cons]
    have hstep : assignOffsetsStep (acc, u) x =
        (acc ++ [(x.sb, leastFreeOffset ((spanRows (min x.startRow x.endRow)
            (max x.startRow x.endRow)).flatMap (usageAt u)))],
         usageAddSpan u (spanRows (min x.startRow x.endRow) (max x.startRow x.endRow))
           (leastFreeOffset ((spanRows (min x.startRow x.endRow)
             (max x.startRow x.endRow)).flatMap (usageAt u)))) := rfl
    rw [hstep, ih]
    simp

/-- The offsets pass keeps the components pairwise disjoint: its output
entries carry a permutation of the input sub-branches. -/
theorem assignOffsets_pairwise (allCommits : List Commit) (idx : String → Option Commit)
    (subBranches : List SubBranch) (hpd : List.Pairwise SBDisjoint subBranches) :
    List.Pairwise (fun a b : SubBranch × Nat => SBDisjoint a.1 b.1)
      (assignOffsets allCommits idx subBranches) := by
  have hsym : ∀ {x y : SubBranch}, SBDisjoint x y → SBDisjoint y x :=
    fun hxy h h1 h2 => hxy h h2 h1
  rw [← List.pairwise_map (f := Prod.fst)]
  rw [assignOffsets, assignFold_fst]
  rw [List.map_nil, List.nil_append, List.pairwise_map]
  refine (List.Perm.pairwise_iff (fun hab => hsym hab)
    (List.perm_insertionSort subSpanOrder _)).mpr ?_
  rw [List.pairwise_map]
  simpa using hpd

/-- Claim C4: within one lineage's layout pass no two distinct sub-branches
given the same positive offset both have a member commit at the same row;
in fact distinct sub-branches of one pass never share a member row at all,
because the claimed-hash marking makes the components disjoint and each row
holds a single commit. -/
theorem c4_no_offset_collision (allCommits : List Commit) (allBranches : List Branch)
    (selectedBranches : List String) (bl : BranchLineage)
    (hbl : bl ∈ computeBranchLineages allCommits allBranches selectedBranches)
    (i j : Nat) (e1 e2 : SubBranch × Nat) (hij : i ≠ j)
    (h1 : (assignOffsets allCommits (hashToCommit allCommits) bl.subBranches)[i]? = some e1)
    (h2 : (assignOffsets allCommits (hashToCommit allCommits) bl.subBranches)[j]? = some e2)
    (hoff : e1.2 = e2.2) (hpos : 0 < e1.2)
    (r : Nat) (c : Commit) (hr : allCommits[r]? = some c) :
    ¬ (c.hash ∈ e1.1.commits ∧ c.hash ∈ e2.1.commits) := by
  rintro ⟨hm1, hm2⟩
  simp only [computeBranchLineages, List.mem_map] at hbl
  obtain ⟨p, hp, hbl'⟩ := hbl
  have hsubs : bl.subBranches = findSubBranches allCommits p.2
      (((selectedBranches.map (fun nm =>
          (nm, getFirstParentLineage allCommits allBranches nm))).filter
        (fun o => o.1 ≠ p.1)).flatMap Prod.snd)
      ((selectedBranches.map (fun nm =>
          (nm, getFirstParentLineage allCommits allBranches nm))).map Prod.snd) := by
    rw [← hbl']
  have hpd := findSubBranches_pairwise_disjoint allCommits p.2
    (((selectedBranches.map (fun nm =>
        (nm, getFirstParentLineage allCommits allBranches nm))).filter
      (fun o => o.1 ≠ p.1)).flatMap Prod.snd)
    ((selectedBranches.map (fun nm =>
        (nm, getFirstParentLineage allCommits allBranches nm))).map Prod.snd)
  rw [← hsubs] at hpd
  have hP := assignOffsets_pairwise allCommits (hashToCommit allCommits) bl.subBranches hpd
  obtain ⟨hi, hgi⟩ := List.getElem?_eq_some.mp h1
  obtain ⟨hj, hgj⟩ := List.getElem?_eq_some.mp h2
  rw [List.pairwise_iff_get] at hP
  rcases Nat.lt_or_ge i j with hlt | hge
  · have := hP ⟨i, hi⟩ ⟨j, hj⟩ hlt
    rw [List.get_eq_getElem, List.get_eq_getElem] at this
    rw [hgi, hgj] at this
    exact this c.hash hm1 hm2
  · have hlt : j < i := lt_of_le_of_ne hge (fun hji => hij hji.symm)
    have := hP ⟨j, hj⟩ ⟨i, hi⟩ hlt
    rw [List.get_eq_getElem, List.get_eq_getElem] at this
    rw [hgi, hgj] at this
    exact this c.hash hm2 hm1

/-- Witness for C4 on the two-feature input: both sub-branches receive
offset 1 over disjoint spans, and they share no member row. -/
theorem c4_no_offset_collision_witness :
    ¬ (("f1" : String) ∈ (SubBranch.mk (some "m2") (some "m1") ["f1"]).commits ∧
       ("f1" : String) ∈ (SubBranch.mk (some "m4") (some "m3") ["f2"]).commits) :=
  c4_no_offset_collision twoFeatureCommits twoFeatureBranches ["main"]
    ⟨"main", ["m4", "m3", "m2", "m1"],
      [⟨some "m4", some "m3", ["f2"]⟩, ⟨some "m2", some "m1", ["f1"]⟩]⟩
    (by decide) 0 1 (⟨some "m2", some "m1", ["f1"]⟩, 1) (⟨some "m4", some "m3", ["f2"]⟩, 1)
    (by decide) (by decide) (by decide) (by decide) (by decide) 4 ⟨"f1", ["m1"], 4, "w6"⟩
    (by decide)

/-- A successful hash-index lookup returns a loaded commit with that hash. -/
theorem hashToCommit_eq_some (allCommits : List Commit) (h : String) (c : Commit)
    (hc : hashToCommit allCommits h = some c) : c ∈ allCommits ∧ c.hash = h := by
  rw [hashToCommit] at hc
  refine ⟨List.mem_reverse.mp (List.mem_of_find?_eq_some hc), ?_⟩
  have := List.find?_some hc
  simpa using this

/-- When `x` is the only loaded commit with its hash, the index resolves its
hash to `x`. -/
theorem hashToCommit_self (allCommits : List Commit) (x : Commit)
    (hx : x ∈ allCommits) (huniq : ∀ c ∈ allCommits, c.hash = x.hash → c = x) :
    hashToCommit allCommits x.hash = some x := by
  rcases hfind : hashToCommit allCommits x.hash with _ | c
  · rw [hashToCommit] at hfind
    rw [List.find?_eq_none] at hfind
    exact absurd (by simp) (hfind x (List.mem_reverse.mpr hx))
  · obtain ⟨hmem, hhash⟩ := hashToCommit_eq_some allCommits x.hash c hfind
    rw [huniq c hmem hhash]

/-- Membership in the child index: `g` is a child of `h` exactly when some
loaded commit with hash `g` lists `h` among its parents. -/
theorem mem_hashToChildren (allCommits : List Commit) (h g : String) :
    g ∈ hashToChildren allCommits h ↔ ∃ c ∈ allCommits, c.hash = g ∧ h ∈ c.parents := by
  rw [hashToChildren]
  constructor
  · intro hg
    obtain ⟨c, hc, hg'⟩ := List.mem_flatMap.mp hg
    obtain ⟨p, hp, hcg⟩ := List.mem_map.mp hg'
    obtain ⟨hpmem, hpeq⟩ := List.mem_filter.mp hp
    exact ⟨c, hc, hcg, by rwa [← (by simpa using hpeq : p = h)]⟩
  · rintro ⟨c, hc, rfl, hpar⟩
    refine List.mem_flatMap.mpr ⟨c, hc, List.mem_map.mpr ⟨h, ?_, rfl⟩⟩
    exact List.mem_filter.mpr ⟨hpar, by simp⟩

/-- If all parents of `x` lie on the lineage and every child of `x` lies on
the lineage or the exclusion set, the stack loop never collects `x.hash`
unless it started there. -/
theorem collectAux_avoids (allCommits : List Commit) (lineage exclude processed : List String)
    (x : Commit)
    (huniq : ∀ c ∈ allCommits, c.hash = x.hash → c = x)
    (hpar : ∀ p ∈ x.parents, p ∈ lineage)
    (hchild : ∀ c ∈ allCommits, x.hash ∈ c.parents → c.hash ∈ lineage ∨ c.hash ∈ exclude) :
    ∀ (fuel : Nat) (stack acc : List String), x.hash ∉ stack → x.hash ∉ acc →
      x.hash ∉ collectAux (hashToCommit allCommits) (hashToChildren allCommits)
        lineage exclude processed fuel stack acc := by
  intro fuel
  induction fuel with
  | zero => intro stack acc _ hacc; exact hacc
  | succ f ih =>
    intro stack acc hstack hacc
    match stack with
    | [] => exact hacc
    | currentHash :: rest =>
      have hxcur : x.hash ≠ currentHash := fun hx => hstack (hx ▸ List.mem_cons_self _ _)
      have hxrest : x.hash ∉ rest := fun hx => hstack (List.mem_cons_of_mem _ hx)
      rw [collectAux]
      by_cases h1 : currentHash ∈ acc
      · rw [if_pos h1]; exact ih rest acc hxrest hacc
      · rw [if_neg h1]
        by_cases h2 : currentHash ∈ lineage
        · rw [if_pos h2]; exact ih rest acc hxrest hacc
        · rw [if_neg h2]
          by_cases h3 : currentHash ∈ exclude
          · rw [if_pos h3]; exact ih rest acc hxrest hacc
          · rw [if_neg h3]
            by_cases h4 : currentHash ∈ processed
            · rw [if_pos h4]; exact ih rest acc hxrest hacc
            · rw [if_neg h4]
              rcases hidx : hashToCommit allCommits currentHash with _ | cur
              · exact ih rest acc hxrest hacc
              · dsimp only
                refine ih _ _ ?_ ?_
                · intro hxin
                  rcases List.mem_append.mp hxin with hxps | hxrest'
                  · rw [List.mem_reverse] at hxps
                    rcases List.mem_append.mp hxps with hxp | hxc
                    · obtain ⟨hxpar, _⟩ := List.mem_filter.mp hxp
                      obtain ⟨hcur, hcurhash⟩ :=
                        hashToCommit_eq_some allCommits currentHash cur hidx
                      rcases hchild cur hcur hxpar with hin | hin
                      · exact h2 (hcurhash ▸ hin)
                      · exact h3 (hcurhash ▸ hin)
                    · obtain ⟨hxch, _⟩ := List.mem_filter.mp hxc
                      obtain ⟨c, hc, hcx, hcurpar⟩ :=
                        (mem_hashToChildren allCommits currentHash x.hash).mp hxch
                      rw [huniq c hc hcx] at hcurpar
                      exact h2 (hpar currentHash hcurpar)
                  · exact hxrest hxrest'
                · intro hxin
                  rcases List.mem_append.mp hxin with hxold | hxnew
                  · exact hacc hxold
                  · exact hxcur (by simpa using hxnew)

/-- When `x` additionally is loaded and its hash passes the entry guards,
the stack loop started at `x.hash` collects exactly the singleton
component. -/
theorem collect_singleton (allCommits : List Commit) (lineage exclude : List String)
    (x : Commit)
    (hx : x ∈ allCommits)
    (huniq : ∀ c ∈ allCommits, c.hash = x.hash → c = x)
    (hpar : ∀ p ∈ x.parents, p ∈ lineage)
    (hchild : ∀ c ∈ allCommits, x.hash ∈ c.parents → c.hash ∈ lineage ∨ c.hash ∈ exclude)
    (hL : x.hash ∉ lineage) (hE : x.hash ∉ exclude) :
    ∀ (processed : List String) (f0 : Nat), x.hash ∉ processed →
      collectConnectedCommits (hashToCommit allCommits) (hashToChildren allCommits)
        lineage exclude processed (f0 + 2) x.hash = [x.hash] := by
  intro processed f0 hP
  rw [collectConnectedCommits]
  rw [show f0 + 2 = (f0 + 1) + 1 from rfl, collectAux]
  rw [if_neg (by simp), if_neg hL, if_neg hE, if_neg hP,
    hashToCommit_self allCommits x hx huniq]
  dsimp only
  have hps : x.parents.filter
      (fun p => decide (p ∉ lineage ∧ p ∉ exclude ∧ p ∉ ([] ++ [x.hash]))) = [] := by
    rw [List.filter_eq_nil]
    intro p hp
    simp only [decide_eq_true_iff, not_and, Decidable.not_not]
    intro hnl
    exact absurd (hpar p hp) hnl
  have hcs : (hashToChildren allCommits x.hash).filter
      (fun ch => decide (ch ∉ lineage ∧ ch ∉ exclude ∧ ch ∉ ([] ++ [x.hash]))) = [] := by
    rw [List.filter_eq_nil]
    intro ch hch
    obtain ⟨c, hc, hcx, hcp⟩ := (mem_hashToChildren allCommits x.hash ch).mp hch
    simp only [decide_eq_true_iff, not_and, Decidable.not_not]
    intro hnl
    rcases hchild c hc hcp with hin | hin
    · exact absurd (hcx ▸ hin) hnl
    · intro hne; exact absurd (hcx ▸ hin) hne
  rw [hps, hcs]
  simp only [List.append_nil, List.nil_append, List.reverse_nil]
  rw [collectAux]

/-- When `x`'s component is the singleton and the inclusion guard holds, the
outer loop pushes exactly the singleton sub-branch record for `x` once it
reaches `x`, and the record survives to the end of the loop. -/
theorem sbFold_pushes_singleton (allCommits : List Commit) (lineage exclude : List String)
    (allLineages : List (List String)) (f0 : Nat) (x : Commit)
    (hx : x ∈ allCommits)
    (huniq : ∀ c ∈ allCommits, c.hash = x.hash → c = x)
    (hpar : ∀ p ∈ x.parents, p ∈ lineage)
    (hchild : ∀ c ∈ allCommits, x.hash ∈ c.parents → c.hash ∈ lineage ∨ c.hash ∈ exclude)
    (hL : x.hash ∉ lineage) (hE : x.hash ∉ exclude)
    (hguard : ((findMergeCommitOnLineage (hashToCommit allCommits) [x.hash] lineage).isSome ||
      !(allLineages.any (fun ol => decide (ol ≠ lineage) &&
        (findMergeCommitOnLineage (hashToCommit allCommits) [x.hash] ol).isSome))) = true) :
    ∀ (l : List Commit) (st : SBState), (∀ c' ∈ l, c'.hash = x.hash → c' = x) →
      x ∈ l → x.hash ∉ st.processed →
      (SubBranch.mk (findMergeCommitOnLineage (hashToCommit allCommits) [x.hash] lineage)
          (findBranchPoint (hashToCommit allCommits) lineage [x.hash]) [x.hash]) ∈
        (l.foldl (findSubBranchesStep (hashToCommit allCommits) (hashToChildren allCommits)
          (f0 + 2) lineage exclude allLineages) st).subBranches := by
  intro l
  induction l with
  | nil => intro st _ hxl; simp at hxl
  | cons c cs ih =>
    intro st hluniq hxl hP
    rw [List.foldl_cons]
    by_cases hcx : c = x
    · subst hcx
      have hstep : findSubBranchesStep (hashToCommit allCommits) (hashToChildren allCommits)
          (f0 + 2) lineage exclude allLineages st c =
          ⟨st.subBranches ++
            [⟨findMergeCommitOnLineage (hashToCommit allCommits) [c.hash] lineage,
              findBranchPoint (hashToCommit allCommits) lineage [c.hash], [c.hash]⟩],
           st.processed ++ [c.hash]⟩ := by
        rw [findSubBranchesStep, if_neg hL, if_neg hE, if_neg hP]
        rw [collect_singleton allCommits lineage exclude c hx huniq hpar hchild hL hE
          st.processed f0 hP]
        dsimp only
        rw [if_pos ?_, if_pos hguard]
        refine ⟨by simp, ?_⟩
        rw [isValidSubBranch, List.all_eq_true]
        intro h hh
        rw [List.mem_singleton.mp hh, hashToCommit_self allCommits c hx huniq]
        dsimp only
        rw [List.all_eq_true]
        intro p hp
        exact decide_eq_true_iff.mpr (Or.inl (hpar p hp))
      rw [hstep]
      exact sbFold_mono (hashToCommit allCommits) (hashToChildren allCommits) (f0 + 2)
        lineage exclude allLineages cs _ _ (List.mem_append.mpr (Or.inr (by simp)))
    · have hxcs : x ∈ cs := by
        rcases List.mem_cons.mp hxl with heq | hcs
        · exact absurd heq.symm hcx
        · exact hcs
      refine ih _ (fun c' hc' => hluniq c' (List.mem_cons_of_mem _ hc')) hxcs ?_
      rcases findSubBranchesStep_cases (hashToCommit allCommits) (hashToChildren allCommits)
          (f0 + 2) lineage exclude allLineages st c with heq | ⟨_, _, _, _, _, heq⟩
      · rw [heq]; exact hP
      · rw [heq]
        dsimp only
        intro hxin
        rcases List.mem_append.mp hxin with hxold | hxnew
        · exact hP hxold
        · refine collectAux_avoids allCommits lineage exclude st.processed x huniq hpar hchild
            (f0 + 2) [c.hash] [] ?_ (by simp) hxnew
          intro hxc
          have hhash : c.hash = x.hash := by
            have : x.hash = c.hash := by simpa using hxc
            exact this.symm
          exact hcx (hluniq c (List.mem_cons_self c cs) hhash)

/-- If no loaded commit lists `x.hash` among its parents, no lineage has a
merge commit for the singleton component of `x`. -/
theorem findMerge_none_of_unreferenced (allCommits : List Commit) (x : Commit)
    (hnochild : ∀ c ∈ allCommits, x.hash ∉ c.parents) (target : List String) :
    findMergeCommitOnLineage (hashToCommit allCommits) [x.hash] target = none := by
  rw [findMergeCommitOnLineage, List.find?_eq_none]
  intro h hmem
  rcases hidx : hashToCommit allCommits h with _ | cm
  · simp
  · dsimp only
    rw [Bool.and_eq_true]
    rintro ⟨_, hany⟩
    rw [List.any_eq_true] at hany
    obtain ⟨p, hp, hpx⟩ := hany
    rw [decide_eq_true_iff] at hpx
    have hpx' : p = x.hash := by simpa using hpx
    have hpmem : p ∈ cm.parents := List.mem_of_mem_drop hp
    rw [hpx'] at hpmem
    exact hnochild cm (hashToCommit_eq_some allCommits h cm hidx).1 hpmem

/-- Claim C2, amended: an isolated commit — no parents, never referenced as
a parent, outside every selected lineage — is returned as a singleton
sub-branch by EVERY lineage pass it is offered to, not only the first in
selection order: the `processedCommits` claim set is local to one
`findSubBranches` call, so claiming does not persist across the passes. -/
theorem c2_unmerged_claimed_every_pass (allCommits : List Commit)
    (lineage exclude : List String) (allLineages : List (List String)) (x : Commit)
    (hx : x ∈ allCommits)
    (huniq : ∀ c ∈ allCommits, c.hash = x.hash → c = x)
    (hnopar : x.parents = [])
    (hnochild : ∀ c ∈ allCommits, x.hash ∉ c.parents)
    (hL : x.hash ∉ lineage) (hE : x.hash ∉ exclude) :
    ∃ sb ∈ findSubBranches allCommits lineage exclude allLineages,
      sb.commits = [x.hash] := by
  have hpar : ∀ p ∈ x.parents, p ∈ lineage := by
    rw [hnopar]; intro p hp; simp at hp
  have hchild : ∀ c ∈ allCommits, x.hash ∈ c.parents →
      c.hash ∈ lineage ∨ c.hash ∈ exclude :=
    fun c hc hin => absurd hin (hnochild c hc)
  have hguard : ((findMergeCommitOnLineage (hashToCommit allCommits) [x.hash]
        lineage).isSome ||
      !(allLineages.any (fun ol => decide (ol ≠ lineage) &&
        (findMergeCommitOnLineage (hashToCommit allCommits) [x.hash] ol).isSome))) = true := by
    rw [findMerge_none_of_unreferenced allCommits x hnochild lineage]
    have hany : (allLineages.any (fun ol => decide (ol ≠ lineage) &&
        (findMergeCommitOnLineage (hashToCommit allCommits) [x.hash] ol).isSome)) = false := by
      rw [List.any_eq_false]
      intro ol _
      rw [findMerge_none_of_unreferenced allCommits x hnochild ol]
      simp
    rw [hany]
    rfl
  have hmem := sbFold_pushes_singleton allCommits lineage exclude allLineages
    (allCommits.foldl
      (fun n c => n + 1 + c.parents.length + (hashToChildren allCommits c.hash).length) 0)
    x hx huniq hpar hchild hL hE hguard allCommits ⟨[], []⟩ huniq hx (by simp)
  exact ⟨_, hmem, rfl⟩

/-- Witness for the amended C2: the isolated commit `x` is also claimed by
the pass of the second selected lineage (`dev`), with the first lineage
excluded — a later pass, not the first in selection order. -/
theorem c2_unmerged_claimed_every_pass_witness :
    ∃ sb ∈ findSubBranches isoCommits ["b"] ["a"] [["a"], ["b"]], sb.commits = ["x"] :=
  c2_unmerged_claimed_every_pass isoCommits ["b"] ["a"] [["a"], ["b"]] ⟨"x", [], 3, "mx"⟩
    (by decide) (by decide) (by decide) (by decide) (by decide) (by decide)

/-- Claim C10: a valid component with a merge commit on the lineage `L` of
the current pass is included in `L`'s sub-branch result even when it also
has a merge commit on a different active lineage — the
merged-into-another-key-branch exclusion only removes components that do not
merge into `L` itself (main.js 314).  Stated for a component that is the
singleton of a commit `x` whose parents all lie on `L` and whose children
all lie on `L` or the excluded lineages. -/
theorem c10_merge_into_self_wins (allCommits : List Commit)
    (lineage exclude : List String) (allLineages : List (List String)) (x : Commit)
    (hx : x ∈ allCommits)
    (huniq : ∀ c ∈ allCommits, c.hash = x.hash → c = x)
    (hL : x.hash ∉ lineage) (hE : x.hash ∉ exclude)
    (hpar : ∀ p ∈ x.parents, p ∈ lineage)
    (hchild : ∀ c ∈ allCommits, x.hash ∈ c.parents → c.hash ∈ lineage ∨ c.hash ∈ exclude)
    (hmerge : (findMergeCommitOnLineage (hashToCommit allCommits) [x.hash]
      lineage).isSome = true)
    (hother : ∃ ol ∈ allLineages, ol ≠ lineage ∧
      (findMergeCommitOnLineage (hashToCommit allCommits) [x.hash] ol).isSome = true) :
    ∃ sb ∈ findSubBranches allCommits lineage exclude allLineages,
      sb.commits = [x.hash] ∧ sb.mergeCommit.isSome = true := by
  have hguard : ((findMergeCommitOnLineage (hashToCommit allCommits) [x.hash]
        lineage).isSome ||
      !(allLineages.any (fun ol => decide (ol ≠ lineage) &&
        (findMergeCommitOnLineage (hashToCommit allCommits) [x.hash] ol).isSome))) = true := by
    rw [Bool.or_eq_true]
    exact Or.inl hmerge
  have hmem := sbFold_pushes_singleton allCommits lineage exclude allLineages
    (allCommits.foldl
      (fun n c => n + 1 + c.parents.length + (hashToChildren allCommits c.hash).length) 0)
    x hx huniq hpar hchild hL hE hguard allCommits ⟨[], []⟩ huniq hx (by simp)
  exact ⟨_, hmem, rfl, hmerge⟩

/-- Witness for C10: the component `{x}` merges into the `main` lineage at
`m2` and into the `dev` lineage at `n2`; it is still included in `main`'s
result with a merge commit recorded. -/
theorem c10_merge_into_self_wins_witness :
    ∃ sb ∈ findSubBranches dualMergeCommits ["m2", "m1"] ["n2", "n1"]
        [["m2", "m1"], ["n2", "n1"]],
      sb.commits = ["x"] ∧ sb.mergeCommit.isSome = true :=
  c10_merge_into_self_wins dualMergeCommits ["m2", "m1"] ["n2", "n1"]
    [["m2", "m1"], ["n2", "n1"]] ⟨"x", ["m1"], 3, "t5"⟩
    (by decide) (by decide) (by decide) (by decide) (by decide) (by decide) (by decide)
    ⟨["n2", "n1"], by decide, by decide, by decide⟩

/-- Indices produced by `enumFrom` are bounded by the start plus the list
length. -/
theorem mem_enumFrom {α : Type} :
    ∀ (l : List α) (k i : Nat) (a : α), (i, a) ∈ enumFrom k l → i < k + l.length := by
  intro l
  induction l with
  | nil => intro k i a h; simp [enumFrom] at h
  | cons x xs ih =>
    intro k i a h
    rw [enumFrom] at h
    rcases List.mem_cons.mp h with heq | htail
    · injection heq with h1 h2
      simp only [List.length_cons]
      omega
    · have := ih (k + 1) i a htail
      simp only [List.length_cons]
      omega

/-- Every entry of `subColumnWrites` carries the branch index as its main
column. -/
theorem subColumnWrites_col (assigned : List (SubBranch × Nat)) (branchIndex startId : Nat) :
    ∀ e ∈ subColumnWrites assigned branchIndex startId, (e : String × ColInfo).2.mainCol = branchIndex := by
  intro e he
  rw [subColumnWrites] at he
  obtain ⟨p, _, he'⟩ := List.mem_flatMap.mp he
  obtain ⟨h, _, rfl⟩ := List.mem_map.mp he'
  rfl

/-- The sub-branch write fold only produces entries whose main column is
bounded by `n` when every processed branch index is. -/
theorem subWritesFold_col_le (allCommits : List Commit) (n : Nat) :
    ∀ (l : List (Nat × BranchLineage)) (st : List (String × ColInfo) × Nat),
      (∀ e ∈ st.1, (e : String × ColInfo).2.mainCol ≤ n) → (∀ p ∈ l, (p : Nat × BranchLineage).1 ≤ n) →
      ∀ e ∈ (l.foldl
        (fun (st : List (String × ColInfo) × Nat) e =>
          (st.1 ++ subColumnWrites
            (assignOffsets allCommits (hashToCommit allCommits) e.2.subBranches) e.1 st.2,
           st.2 + (assignOffsets allCommits (hashToCommit allCommits)
             e.2.subBranches).length))
        st).1, (e : String × ColInfo).2.mainCol ≤ n := by
  intro l
  induction l with
  | nil => intro st hst _ e he; exact hst e he
  | cons p ps ih =>
    intro st hst hl e he
    rw [List.foldl_cons] at he
    refine ih _ ?_ (fun q hq => hl q (List.mem_cons_of_mem _ hq)) e he
    intro e' he'
    rcases List.mem_append.mp he' with hold | hnew
    · exact hst e' hold
    · rw [subColumnWrites_col _ _ _ e' hnew]
      exact hl p (List.mem_cons_self _ _)

/-- Every write into the `commitColumn` map uses a main column bounded by
the lineage count (the Other column index). -/
theorem columnWrites_col_le (allCommits : List Commit) (bls : List BranchLineage) :
    ∀ e ∈ columnWrites allCommits bls, (e : String × ColInfo).2.mainCol ≤ bls.length := by
  intro e he
  rw [columnWrites] at he
  rcases List.mem_append.mp he with h12 | hsub
  · rcases List.mem_append.mp h12 with hdef | hlin
    · obtain ⟨c, _, rfl⟩ := List.mem_map.mp hdef
      exact le_refl _
    · obtain ⟨p, hp, he'⟩ := List.mem_flatMap.mp hlin
      obtain ⟨h, _, rfl⟩ := List.mem_map.mp he'
      have hlt : p.1 < 0 + bls.length := mem_enumFrom bls 0 p.1 p.2 (by simpa using hp)
      simpa using le_of_lt hlt
  · refine subWritesFold_col_le allCommits bls.length (enumFrom 0 bls) ([], 0)
      (by intro e' he'; simp at he') ?_ e hsub
    intro p hp
    have hlt : p.1 < 0 + bls.length := mem_enumFrom bls 0 p.1 p.2 (by simpa using hp)
    omega

/-- A resolved `commitColumn` entry has its main column bounded by the
lineage count. -/
theorem commitColumnOf_col_le (allCommits : List Commit) (bls : List BranchLineage)
    (h : String) (ci : ColInfo) (hc : commitColumnOf allCommits bls h = some ci) :
    ci.mainCol ≤ bls.length := by
  rw [commitColumnOf] at hc
  obtain ⟨e, hfind, he⟩ := Option.map_eq_some'.mp hc
  have hmem : e ∈ columnWrites allCommits bls :=
    List.mem_reverse.mp (List.mem_of_find?_eq_some hfind)
  rw [← he]
  exact columnWrites_col_le allCommits bls e hmem

/-- A placement's column is bounded by the lineage count. -/
theorem positionOf_col_le (allCommits : List Commit) (bls : List BranchLineage)
    (h : String) (p : Placement) (hp : positionOf allCommits bls h = some p) :
    p.col ≤ bls.length := by
  rw [positionOf] at hp
  rcases hfind : (enumFrom 0 allCommits).reverse.find? (fun e => e.2.hash == h) with _ | e
  · rw [hfind] at hp; simp at hp
  · rw [hfind] at hp
    dsimp only at hp
    rcases hci : commitColumnOf allCommits bls h with _ | ci
    · rw [hci] at hp; simp at hp
    · rw [hci] at hp
      dsimp only at hp
      have hcol := commitColumnOf_col_le allCommits bls h ci hci
      have hp' : p.col = ci.mainCol := by
        have := Option.some.inj hp
        rw [← this]
      rw [hp']
      exact hcol

/-- Claim C5, amended: an edge between two placed commits is classified as
mainline only if both endpoints sit in lineage columns (index below the
lineage count) and neither endpoint is flagged as a sub-branch member; the
code does not require the two endpoints to share a column. -/
theorem c5_mainline_only_if (allCommits : List Commit) (allBranches : List Branch)
    (selectedBranches : List String) (child parent : String) (cp pp : Placement)
    (hcp : positionOf allCommits
      (computeBranchLineages allCommits allBranches selectedBranches) child = some cp)
    (hpp : positionOf allCommits
      (computeBranchLineages allCommits allBranches selectedBranches) parent = some pp)
    (hml : isMainlineEdge cp pp
      (computeBranchLineages allCommits allBranches selectedBranches).length = true) :
    cp.col < (computeBranchLineages allCommits allBranches selectedBranches).length ∧
    pp.col < (computeBranchLineages allCommits allBranches selectedBranches).length ∧
    cp.isSubBranchMember = false ∧ pp.isSubBranchMember = false := by
  rw [isMainlineEdge, Bool.and_eq_true, Bool.and_eq_true] at hml
  obtain ⟨⟨hsub, hother⟩, hclt⟩ := hml
  rw [Bool.not_eq_true', isSubBranchEdge, Bool.or_eq_false_iff] at hsub
  rw [Bool.not_eq_true', isOtherEdge, Bool.or_eq_false_iff,
    decide_eq_false_iff_not, decide_eq_false_iff_not] at hother
  rw [decide_eq_true_iff] at hclt
  refine ⟨hclt, ?_, hsub.1, hsub.2⟩
  exact lt_of_le_of_ne
    (positionOf_col_le allCommits _ parent pp hpp) hother.2

/-- Witness for the amended C5 on the single-branch chain: the mainline edge
from `c3` to `c2` has both endpoints in column 0 with no sub-branch flag. -/
theorem c5_mainline_only_if_witness :
    (Placement.mk 0 0 0 50 50 false none).col <
      (computeBranchLineages chainCommits chainBranches ["main"]).length ∧
    (Placement.mk 0 0 1 50 80 false none).col <
      (computeBranchLineages chainCommits chainBranches ["main"]).length ∧
    (Placement.mk 0 0 0 50 50 false none).isSubBranchMember = false ∧
    (Placement.mk 0 0 1 50 80 false none).isSubBranchMember = false :=
  c5_mainline_only_if chainCommits chainBranches ["main"] "c3" "c2"
    ⟨0, 0, 0, 50, 50, false, none⟩ ⟨0, 0, 1, 50, 80, false, none⟩
    (by decide) (by decide) (by decide)

end Gitopo
